import Mathlib

/-!
Verification of the Underline inline tool (`src/index.ts` of editor-js/underline)
over a shallow embedding of the DOM fragment the tool manipulates.

The tool's own methods (`surround`, `wrap`, `unwrap`, `checkState`, the static
`sanitize` rule) are translated line by line from the source.  The host
environment the source calls into — the document tree, DOM `Range` primitives
(`extractContents`, `insertNode`, live-range fixup on node removal), the window
selection, and the editor host's capabilities `selection.findParentTag` /
`selection.expandToTag` — is modelled explicitly below, following the DOM
semantics the source relies on and the specification's description of the host
capability contract.
-/

/-- A node of the document tree: either a text node or an element carrying a
tag name, a class list (`classList`), an attribute list and child nodes. -/
inductive DomNode where
  | text (s : String)
  | element (tag : String) (classes : List String)
      (attrs : List (String × String)) (children : List DomNode)

/-- A DOM `Range` whose both boundary points live in one container node:
`path` locates the container from the block root (`[]` is the block root
itself), `startOff` and `endOff` are child offsets inside that container. -/
structure DomRange where
  path : List Nat
  startOff : Nat
  endOff : Nat
deriving DecidableEq

/-- The toolbar button handle: we track its class list, the only part the
source mutates after creation. -/
structure Button where
  classes : List String
deriving DecidableEq

/-- The mutable state the tool touches: the block's child list (`doc`), the
window selection (`none` models `window.getSelection()` returning null, and
the list models the selection's range list, read via `getRangeAt(0)`), and
the toolbar button (`none` before `render` has run). -/
structure EditorState where
  doc : List DomNode
  winSel : Option (List DomRange)
  button : Option Button

/-- Replace the element at an index by applying `f`, leaving the list
unchanged when the index is out of range. -/
def modifyIdx {α : Type} (f : α → α) : Nat → List α → List α
  | _, [] => []
  | 0, x :: xs => f x :: xs
  | n + 1, x :: xs => x :: modifyIdx f n xs

/-- The children of an element node; `none` for text nodes. -/
def childrenOf : DomNode → Option (List DomNode)
  | .element _ _ _ ch => some ch
  | _ => none

/-- Apply `f` to an element's child list; text nodes are unchanged. -/
def onChildren (f : List DomNode → List DomNode) : DomNode → DomNode
  | .element t c a ch => .element t c a (f ch)
  | n => n

/-- Rewrite the child list of the node addressed by a path (the block root for
`[]`); the tree is unchanged when the path does not resolve to an element. -/
def updateAt : List Nat → (List DomNode → List DomNode) → List DomNode → List DomNode
  | [], f, ns => f ns
  | i :: p, f, ns => modifyIdx (onChildren (updateAt p f)) i ns

/-- The child list of the node addressed by a path (the block root's children
for `[]`). -/
def childrenAt : List Nat → List DomNode → Option (List DomNode)
  | [], ns => some ns
  | i :: p, ns => ((ns[i]?).bind childrenOf).bind (childrenAt p)

/-- The node addressed by a nonempty path; the block root (`[]`) is not itself
a `DomNode`. -/
def nodeAt : List Nat → List DomNode → Option DomNode
  | [], _ => none
  | [i], ns => ns[i]?
  | i :: j :: p, ns => ((ns[i]?).bind childrenOf).bind (nodeAt (j :: p))

/-- Replace the child list at a path with a fixed list. -/
def setChildrenAt (p : List Nat) (cs : List DomNode) (ns : List DomNode) : List DomNode :=
  updateAt p (fun _ => cs) ns

mutual

/-- Concatenated text of a node (DOM `textContent`). -/
def textContent : DomNode → String
  | .text s => s
  | .element _ _ _ ch => textContentList ch

/-- Concatenated text of a node list. -/
def textContentList : List DomNode → String
  | [] => ""
  | n :: ns => textContent n ++ textContentList ns

end

theorem modifyIdx_nil {α : Type} (f : α → α) (n : Nat) : modifyIdx f n [] = [] := by
  cases n <;> rfl

theorem getElem?_modifyIdx_self {α : Type} (f : α → α) :
    ∀ (i : Nat) (l : List α), (modifyIdx f i l)[i]? = (l[i]?).map f := by
  intro i
  induction i with
  | zero => intro l; cases l <;> simp [modifyIdx]
  | succ n ih =>
    intro l
    cases l with
    | nil => rfl
    | cons x xs => simpa [modifyIdx] using ih xs

theorem modifyIdx_congr {α : Type} {f g : α → α} :
    ∀ (i : Nat) (l : List α) (x : α), l[i]? = some x → f x = g x →
      modifyIdx f i l = modifyIdx g i l := by
  intro i
  induction i with
  | zero =>
    intro l x h hfg
    cases l with
    | nil => rfl
    | cons y ys =>
      simp only [List.getElem?_cons_zero, Option.some.injEq] at h
      subst h
      simp [modifyIdx, hfg]
  | succ n ih =>
    intro l x h hfg
    cases l with
    | nil => rfl
    | cons y ys =>
      simp only [List.getElem?_cons_succ] at h
      simp [modifyIdx, ih ys x h hfg]

theorem modifyIdx_eq_self {α : Type} {f : α → α} :
    ∀ (i : Nat) (l : List α) (x : α), l[i]? = some x → f x = x →
      modifyIdx f i l = l := by
  intro i
  induction i with
  | zero =>
    intro l x h hfx
    cases l with
    | nil => rfl
    | cons y ys =>
      simp only [List.getElem?_cons_zero, Option.some.injEq] at h
      subst h
      simp [modifyIdx, hfx]
  | succ n ih =>
    intro l x h hfx
    cases l with
    | nil => rfl
    | cons y ys =>
      simp only [List.getElem?_cons_succ] at h
      simp [modifyIdx, ih ys x h hfx]

theorem modifyIdx_comp {α : Type} (f g : α → α) :
    ∀ (i : Nat) (l : List α), modifyIdx f i (modifyIdx g i l) = modifyIdx (fun x => f (g x)) i l := by
  intro i
  induction i with
  | zero => intro l; cases l <;> rfl
  | succ n ih =>
    intro l
    cases l with
    | nil => rfl
    | cons x xs => simp [modifyIdx, ih xs]

theorem onChildren_comp (f g : List DomNode → List DomNode) (n : DomNode) :
    onChildren f (onChildren g n) = onChildren (fun cs => f (g cs)) n := by
  cases n <;> rfl

theorem childrenAt_updateAt (f : List DomNode → List DomNode) :
    ∀ (p : List Nat) (ns : List DomNode),
      childrenAt p (updateAt p f ns) = (childrenAt p ns).map f := by
  intro p
  induction p with
  | nil => intro ns; rfl
  | cons i p ih =>
    intro ns
    simp only [updateAt, childrenAt, getElem?_modifyIdx_self]
    cases h : ns[i]? with
    | none => rfl
    | some n =>
      cases n with
      | text s => rfl
      | element t c a ch => simpa [onChildren, childrenOf] using ih ch

theorem updateAt_comp (f g : List DomNode → List DomNode) :
    ∀ (p : List Nat) (ns : List DomNode),
      updateAt p f (updateAt p g ns) = updateAt p (fun cs => f (g cs)) ns := by
  intro p
  induction p with
  | nil => intro ns; rfl
  | cons i p ih =>
    intro ns
    simp only [updateAt, modifyIdx_comp]
    apply congrFun
    apply congrFun
    apply congrArg
    funext n
    rw [onChildren_comp]
    cases n with
    | text s => rfl
    | element t c a ch => simp [onChildren, ih ch]

theorem updateAt_congr {f g : List DomNode → List DomNode} :
    ∀ (p : List Nat) (ns cs : List DomNode), childrenAt p ns = some cs → f cs = g cs →
      updateAt p f ns = updateAt p g ns := by
  intro p
  induction p with
  | nil =>
    intro ns cs h hfg
    simp only [childrenAt, Option.some.injEq] at h
    subst h
    simpa [updateAt] using hfg
  | cons i p ih =>
    intro ns cs h hfg
    simp only [childrenAt] at h
    cases hi : ns[i]? with
    | none => simp [hi] at h
    | some n =>
      cases n with
      | text s => simp [hi, childrenOf] at h
      | element t c a ch =>
        simp only [hi, childrenOf, Option.bind_some] at h
        exact modifyIdx_congr i ns _ hi (by simp [onChildren, ih ch cs h hfg])

theorem updateAt_id {f : List DomNode → List DomNode} :
    ∀ (p : List Nat) (ns cs : List DomNode), childrenAt p ns = some cs → f cs = cs →
      updateAt p f ns = ns := by
  intro p
  induction p with
  | nil =>
    intro ns cs h hfx
    simp only [childrenAt, Option.some.injEq] at h
    subst h
    simpa [updateAt] using hfx
  | cons i p ih =>
    intro ns cs h hfx
    simp only [childrenAt] at h
    cases hi : ns[i]? with
    | none => simp [hi] at h
    | some n =>
      cases n with
      | text s => simp [hi, childrenOf] at h
      | element t c a ch =>
        simp only [hi, childrenOf, Option.bind_some] at h
        exact modifyIdx_eq_self i ns _ hi (by simp [onChildren, ih ch cs h hfx])

theorem updateAt_to_set {f : List DomNode → List DomNode} (p : List Nat)
    (ns cs : List DomNode) (h : childrenAt p ns = some cs) :
    updateAt p f ns = setChildrenAt p (f cs) ns :=
  updateAt_congr p ns cs h rfl

theorem childrenAt_setChildrenAt (p : List Nat) (ns cs X : List DomNode)
    (h : childrenAt p ns = some cs) :
    childrenAt p (setChildrenAt p X ns) = some X := by
  rw [setChildrenAt, childrenAt_updateAt, h]
  rfl

theorem setChildrenAt_setChildrenAt (p : List Nat) (X Y ns : List DomNode) :
    setChildrenAt p X (setChildrenAt p Y ns) = setChildrenAt p X ns :=
  updateAt_comp _ _ p ns

theorem setChildrenAt_self (p : List Nat) (ns cs : List DomNode)
    (h : childrenAt p ns = some cs) : setChildrenAt p cs ns = ns :=
  updateAt_id p ns cs h rfl

theorem nodeAt_append :
    ∀ (p : List Nat) (i : Nat) (ns : List DomNode),
      nodeAt (p ++ [i]) ns = (childrenAt p ns).bind (fun cs => cs[i]?) := by
  intro p
  induction p with
  | nil => intro i ns; rfl
  | cons j p ih =>
    intro i ns
    cases p with
    | nil =>
      simp only [List.nil_append, List.cons_append, nodeAt, childrenAt]
      cases hj : ns[j]? with
      | none => rfl
      | some n =>
        cases n with
        | text s => rfl
        | element t c a ch => simp [childrenOf, nodeAt, childrenAt]
    | cons k q =>
      simp only [List.cons_append, nodeAt, childrenAt]
      cases hj : ns[j]? with
      | none => rfl
      | some n =>
        cases n with
        | text s => rfl
        | element t c a ch =>
          simpa [childrenOf] using ih i ch

theorem childrenAt_append :
    ∀ (p : List Nat) (i : Nat) (ns : List DomNode),
      childrenAt (p ++ [i]) ns =
        ((childrenAt p ns).bind (fun cs => cs[i]?)).bind childrenOf := by
  intro p
  induction p with
  | nil => intro i ns; simp [childrenAt]
  | cons j p ih =>
    intro i ns
    simp only [List.cons_append, childrenAt]
    cases hj : ns[j]? with
    | none => rfl
    | some n =>
      cases n with
      | text s => rfl
      | element t c a ch => simpa [childrenOf] using ih i ch

theorem updateAt_append (f : List DomNode → List DomNode) :
    ∀ (p : List Nat) (i : Nat) (ns : List DomNode),
      updateAt (p ++ [i]) f ns = updateAt p (modifyIdx (onChildren f) i) ns := by
  intro p
  induction p with
  | nil =>
    intro i ns
    simp only [List.nil_append, updateAt]
  | cons j p ih =>
    intro i ns
    simp only [List.cons_append, updateAt]
    apply congrFun
    apply congrFun
    apply congrArg
    funext n
    cases n with
    | text s => rfl
    | element t c a ch => simp [onChildren, ih i ch]

/-- The extracted fragment of DOM `Range.extractContents`: the children of the
range's container between the two offsets (empty when the path does not
resolve). -/
def extractedFrag (p : List Nat) (s e : Nat) (doc : List DomNode) : List DomNode :=
  match childrenAt p doc with
  | some ns => (ns.drop s).take (e - s)
  | none => []

/-- The document after DOM `Range.extractContents`: the selected children are
removed from the range's container. -/
def extractRemainder (r : DomRange) (doc : List DomNode) : List DomNode :=
  updateAt r.path (fun ns => ns.take r.startOff ++ ns.drop r.endOff) doc

/-- DOM `Range.insertNode` (with a document fragment): insert the nodes at the
range's start boundary; per the DOM insertion steps the range is updated so
that, when it was collapsed, its end moves past the inserted nodes. -/
def insertNodeR (r : DomRange) (nodes : List DomNode) (doc : List DomNode) :
    List DomNode × DomRange :=
  (updateAt r.path (fun ns => ns.take r.startOff ++ nodes ++ ns.drop r.startOff) doc,
   if r.startOff = r.endOff then ⟨r.path, r.startOff, r.startOff + nodes.length⟩
   else ⟨r.path, r.startOff, r.endOff + nodes.length⟩)

/-- `parentNode.removeChild`: remove child `i` of the node at path `parent`. -/
def removeChildAt (parent : List Nat) (i : Nat) (doc : List DomNode) : List DomNode :=
  updateAt parent (fun ns => ns.take i ++ ns.drop (i + 1)) doc

/-- DOM live-range fixup when the child `i` of the node at `parent` is removed:
a boundary inside the removed subtree moves to the removed node's old position,
and offsets in `parent` past the removed index shift down by one. -/
def rangeFixupRemove (parent : List Nat) (i : Nat) (r : DomRange) : DomRange :=
  if (parent ++ [i]).isPrefixOf r.path then ⟨parent, i, i⟩
  else if r.path = parent then
    ⟨parent, if i < r.startOff then r.startOff - 1 else r.startOff,
             if i < r.endOff then r.endOff - 1 else r.endOff⟩
  else r

/-- `window.getSelection().getRangeAt(0)`, nullable as the source treats it:
the first range of the live selection, if any. -/
def currentRange (st : EditorState) : Option DomRange :=
  st.winSel.bind List.head?

/-- Modelled from the spec: the host capability `selection.expandToTag(node)`
("extends active selection to cover given node", editor.js
`SelectionUtils.expandToTag`, which is not part of this repository).  It
clears the selection's ranges and selects the given node's contents; when the
window has no selection object nothing happens, and a handle that does not
resolve to an element leaves the selection without ranges. -/
def expandToTag (st : EditorState) (p : List Nat) : EditorState :=
  match st.winSel with
  | none => st
  | some _ =>
    match nodeAt p st.doc with
    | some (.element _ _ _ ch) => { st with winSel := some [⟨p, 0, ch.length⟩] }
    | _ => { st with winSel := some [] }

/-- All nonempty prefixes of a path, longest first: the candidate node and its
ancestors, innermost first (helper for `findParentTag`). -/
def ancestorsAux : List Nat → List (List Nat)
  | [] => []
  | i :: rest => (i :: rest).reverse :: ancestorsAux rest

/-- The paths of the selection container and its ancestors, innermost first
(the block root `[]` is excluded: it is the host's block holder, not a node of
the embedded fragment). -/
def ancestorPaths (p : List Nat) : List (List Nat) := ancestorsAux p.reverse

/-- Does this node match the wanted tag name and carry the wanted class? -/
def isWrapperNode (tag cls : String) : Option DomNode → Bool
  | some (.element t cl _ _) => t == tag && cl.contains cls
  | _ => false

/-- Modelled from the spec: the host capability
`selection.findParentTag(tagName, className)` ("ancestor search from current
selection", editor.js `SelectionUtils.findParentTag`, which is not part of
this repository).  Starting from the current selection's container it walks
the ancestor chain and returns the first node matching the tag name and class,
or `none` when there is no selection, no range, or no match. -/
def findParentTag (st : EditorState) (tag cls : String) : Option (List Nat) :=
  match currentRange st with
  | none => none
  | some r => (ancestorPaths r.path).find? (fun q => isWrapperNode tag cls (nodeAt q st.doc))

namespace Underline

/-- `static get CSS()` of `src/index.ts`: the class name for the term tag. -/
def CSS : String := "cdx-underline"

/-- `private tag: string = 'U'` of `src/index.ts`. -/
def tag : String := "U"

/-- `render()` of `src/index.ts`: create the toolbar button carrying the
base icon class (the part of the created element the later methods read). -/
def render (st : EditorState) (baseCls : String) : EditorState :=
  { st with button := some ⟨[baseCls]⟩ }

/-- `wrap(range)` of `src/index.ts`: create a `U` element with class
`cdx-underline`, move the range's extracted contents into it
(`u.appendChild(range.extractContents())`), insert it at the range
(`range.insertNode(u)`), then `this.api.selection.expandToTag(u)`. -/
def wrap (st : EditorState) (r : DomRange) : EditorState :=
  let frag := extractedFrag r.path r.startOff r.endOff st.doc
  let doc1 := extractRemainder r st.doc
  let rangeC : DomRange := ⟨r.path, r.startOff, r.startOff⟩
  let p := insertNodeR rangeC [DomNode.element tag [CSS] [] frag] doc1
  expandToTag { st with doc := p.fst } (r.path ++ [r.startOff])

/-- The body of `unwrap` after the selection guards of `src/index.ts` lines
150–157: extract the range's contents, remove the now-empty wrapper from its
parent (`termWrapper.parentNode?.removeChild(termWrapper)`, a no-op when the
wrapper has no parent, with the DOM live-range fixup applied to `range`),
re-insert the extracted content at the range, and restore the selection
(`sel.removeAllRanges(); sel.addRange(range)`).  The source also guards
`if (!unwrappedContent) return`, but `extractContents` always returns a
(possibly empty) fragment, so that guard never fires and is not a branch
here. -/
def unwrapCore (st1 : EditorState) (w : List Nat) (range : DomRange) : EditorState :=
  let frag := extractedFrag range.path range.startOff range.endOff st1.doc
  let doc1 := extractRemainder range st1.doc
  let rangeC : DomRange := ⟨range.path, range.startOff, range.startOff⟩
  match w.getLast? with
  | none =>
    let p := insertNodeR rangeC frag doc1
    { st1 with doc := p.fst, winSel := some [p.snd] }
  | some i =>
    let parent := w.dropLast
    let doc2 := removeChildAt parent i doc1
    let range3 := rangeFixupRemove parent i rangeC
    let p := insertNodeR range3 frag doc2
    { st1 with doc := p.fst, winSel := some [p.snd] }

/-- `unwrap(termWrapper)` of `src/index.ts`: expand the selection to the whole
wrapper, bail out when no selection or no range is available (lines 150–157),
otherwise run the extraction/removal/re-insertion body. -/
def unwrap (st : EditorState) (w : List Nat) : EditorState :=
  let st1 := expandToTag st w
  match currentRange st1 with
  | none => st1
  | some range => unwrapCore st1 w range

/-- `surround(range)` of `src/index.ts`: return on a null range, otherwise ask
`findParentTag` for an existing wrapper and delegate to `unwrap` or `wrap`. -/
def surround (st : EditorState) (range : Option DomRange) : EditorState :=
  match range with
  | none => st
  | some r =>
    match findParentTag st tag CSS with
    | some termWrapper => unwrap st termWrapper
    | none => wrap st r

/-- `classList.toggle(cls, force)` on the button's class list. -/
def toggleClass (cls : String) (force : Bool) (l : List String) : List String :=
  if force then (if l.contains cls then l else l ++ [cls])
  else l.filter (fun c => c != cls)

/-- `checkState()` of `src/index.ts`: query `findParentTag`, toggle the
button's active class to match (skipped via `?.` when no button exists), and
return whether a wrapper was found. -/
def checkState (st : EditorState) (activeCls : String) : Bool × EditorState :=
  let termTag := findParentTag st tag CSS
  let button1 := st.button.map (fun b => ⟨toggleClass activeCls termTag.isSome b.classes⟩)
  (termTag.isSome, { st with button := button1 })

/-- `static get sanitize()` of `src/index.ts`: the declarative rule
`{ u: { class: 'cdx-underline' } }`, as a tag-indexed whitelist of
attribute/value pairs. -/
def sanitize : List (String × List (String × String)) := [("u", [("class", CSS)])]

end Underline

mutual

/-- Modelled from the spec: the host's sanitization pass consuming the
declarative rule (the sanitizer itself lives in the editor host, not in this
repository).  Per the spec, an element whose tag name is configured "is
permitted to retain only the fixed class attribute; all other attributes on
that tag are stripped"; tags without a rule are left untouched here, and
children are sanitized recursively. -/
def sanitizeNode (cfg : List (String × List (String × String))) : DomNode → DomNode
  | .text s => .text s
  | .element t cl attrs ch =>
    match (cfg.find? (fun kv => kv.fst == t)).map Prod.snd with
    | some allowed =>
      .element t (cl.filter (fun c => allowed.contains ("class", c)))
        (attrs.filter (fun a => allowed.contains a && a.fst != "class"))
        (sanitizeList cfg ch)
    | none => .element t cl attrs (sanitizeList cfg ch)

/-- Sanitize each node of a list (helper for `sanitizeNode`). -/
def sanitizeList (cfg : List (String × List (String × String))) :
    List DomNode → List DomNode
  | [] => []
  | n :: ns => sanitizeNode cfg n :: sanitizeList cfg ns

end

namespace Underline

/-- What `wrap` does to the state, computed once and for all: with a live
selection object present and a range resolving to `cs` with sane offsets, the
selected slice of children is moved inside a fresh `U.cdx-underline` element
inserted at the range start, and the selection is expanded to the wrapper's
contents. -/
theorem wrap_eq (st : EditorState) (r : DomRange) (cs : List DomNode) (s0 : List DomRange)
    (hsel : st.winSel = some s0)
    (hpath : childrenAt r.path st.doc = some cs)
    (hs : r.startOff ≤ r.endOff) (he : r.endOff ≤ cs.length) :
    wrap st r = { st with
      doc := setChildrenAt r.path
        (cs.take r.startOff ++
          [DomNode.element tag [CSS] []
            ((cs.drop r.startOff).take (r.endOff - r.startOff))] ++
          cs.drop r.endOff) st.doc,
      winSel := some [⟨r.path ++ [r.startOff], 0, r.endOff - r.startOff⟩] } := by
  have hsl : r.startOff ≤ cs.length := le_trans hs he
  have hlen : (cs.take r.startOff).length = r.startOff := by
    rw [List.length_take]; omega
  have hfrag : extractedFrag r.path r.startOff r.endOff st.doc =
      (cs.drop r.startOff).take (r.endOff - r.startOff) := by
    simp [extractedFrag, hpath]
  have hfraglen : ((cs.drop r.startOff).take (r.endOff - r.startOff)).length =
      r.endOff - r.startOff := by
    rw [List.length_take, List.length_drop]; omega
  have hrem : extractRemainder r st.doc =
      setChildrenAt r.path (cs.take r.startOff ++ cs.drop r.endOff) st.doc :=
    updateAt_to_set _ _ _ hpath
  have hch1 : childrenAt r.path
      (setChildrenAt r.path (cs.take r.startOff ++ cs.drop r.endOff) st.doc) =
      some (cs.take r.startOff ++ cs.drop r.endOff) :=
    childrenAt_setChildrenAt _ _ _ _ hpath
  have htake : (cs.take r.startOff ++ cs.drop r.endOff).take r.startOff =
      cs.take r.startOff := List.take_left' hlen
  have hdrop : (cs.take r.startOff ++ cs.drop r.endOff).drop r.startOff =
      cs.drop r.endOff := List.drop_left' hlen
  have hdoc : (insertNodeR ⟨r.path, r.startOff, r.startOff⟩
        [DomNode.element tag [CSS] []
          ((cs.drop r.startOff).take (r.endOff - r.startOff))]
        (extractRemainder r st.doc)).fst =
      setChildrenAt r.path
        (cs.take r.startOff ++
          [DomNode.element tag [CSS] []
            ((cs.drop r.startOff).take (r.endOff - r.startOff))] ++
          cs.drop r.endOff) st.doc := by
    rw [hrem]
    show updateAt r.path _ _ = _
    rw [updateAt_to_set _ _ _ hch1, setChildrenAt_setChildrenAt, htake, hdrop,
      List.append_assoc]
  have hnode : nodeAt (r.path ++ [r.startOff])
      (setChildrenAt r.path
        (cs.take r.startOff ++
          [DomNode.element tag [CSS] []
            ((cs.drop r.startOff).take (r.endOff - r.startOff))] ++
          cs.drop r.endOff) st.doc) =
      some (DomNode.element tag [CSS] []
        ((cs.drop r.startOff).take (r.endOff - r.startOff))) := by
    rw [nodeAt_append, childrenAt_setChildrenAt _ _ _ _ hpath]
    rw [Option.some_bind, List.append_assoc, List.getElem?_append_right (le_of_eq hlen),
      hlen]
    simp
  show expandToTag _ _ = _
  rw [hfrag, hdoc]
  rw [expandToTag]
  simp only [hsel, hnode, hfraglen]

end Underline

theorem modifyIdx_eq {α : Type} (f : α → α) :
    ∀ (i : Nat) (l : List α) (x : α), l[i]? = some x →
      modifyIdx f i l = l.take i ++ f x :: l.drop (i + 1) := by
  intro i
  induction i with
  | zero =>
    intro l x h
    cases l with
    | nil => simp at h
    | cons y ys =>
      simp only [List.getElem?_cons_zero, Option.some.injEq] at h
      subst h
      simp [modifyIdx]
  | succ n ih =>
    intro l x h
    cases l with
    | nil => simp at h
    | cons y ys =>
      simp only [List.getElem?_cons_succ] at h
      simp [modifyIdx, ih ys x h]

theorem isPrefixOf_self (l : List Nat) : l.isPrefixOf l = true := by
  induction l with
  | nil => rfl
  | cons a as ih => simp [List.isPrefixOf, ih]

theorem ancestorPaths_concat (p : List Nat) (i : Nat) :
    ancestorPaths (p ++ [i]) = (p ++ [i]) :: ancestorPaths p := by
  unfold ancestorPaths
  have h : (p ++ [i]).reverse = i :: p.reverse := by simp
  rw [h, ancestorsAux]
  simp

theorem getLast?_lt_length {α : Type} (l : List α) (i : Nat) (x : α) (h : l[i]? = some x) :
    i < l.length := by
  by_contra hc
  rw [List.getElem?_eq_none (Nat.le_of_not_lt hc)] at h
  exact Option.noConfusion h

theorem nodeAt_set_concat (p : List Nat) (s : Nat) (A : List DomNode) (u : DomNode)
    (B ns cs : List DomNode) (hpath : childrenAt p ns = some cs) (hlen : A.length = s) :
    nodeAt (p ++ [s]) (setChildrenAt p (A ++ [u] ++ B) ns) = some u := by
  rw [nodeAt_append, childrenAt_setChildrenAt _ _ _ _ hpath, Option.some_bind,
    List.append_assoc, List.getElem?_append_right (le_of_eq hlen), hlen]
  simp

namespace Underline

/-- After `wrap`, the selection sits on the freshly inserted wrapper, so
`findParentTag` immediately reports it. -/
theorem findParentTag_after_wrap (st : EditorState) (r : DomRange) (cs : List DomNode)
    (s0 : List DomRange) (hsel : st.winSel = some s0)
    (hpath : childrenAt r.path st.doc = some cs)
    (hs : r.startOff ≤ r.endOff) (he : r.endOff ≤ cs.length) :
    findParentTag (wrap st r) tag CSS = some (r.path ++ [r.startOff]) := by
  rw [wrap_eq st r cs s0 hsel hpath hs he]
  have hlen : (cs.take r.startOff).length = r.startOff := by
    rw [List.length_take]
    have : r.startOff ≤ cs.length := le_trans hs he
    omega
  have hnode := nodeAt_set_concat r.path r.startOff (cs.take r.startOff)
    (DomNode.element tag [CSS] [] ((cs.drop r.startOff).take (r.endOff - r.startOff)))
    (cs.drop r.endOff) st.doc cs hpath hlen
  have hcr : currentRange { st with
      doc := setChildrenAt r.path
        (cs.take r.startOff ++
          [DomNode.element tag [CSS] []
            ((cs.drop r.startOff).take (r.endOff - r.startOff))] ++
          cs.drop r.endOff) st.doc,
      winSel := some [⟨r.path ++ [r.startOff], 0, r.endOff - r.startOff⟩] } =
      some ⟨r.path ++ [r.startOff], 0, r.endOff - r.startOff⟩ := rfl
  simp only [findParentTag, hcr]
  rw [ancestorPaths_concat]
  rw [List.find?_cons_of_pos]
  simp only [hnode, isWrapperNode]
  simp [tag, CSS]

/-- What `unwrap` does to the state, computed once and for all: with a live
selection object present and a wrapper element sitting at child `i` of the
node at `parent`, the wrapper is replaced in place by its children and the
selection is reset to a range covering exactly the re-inserted content. -/
theorem unwrap_eq (st : EditorState) (parent : List Nat) (i : Nat)
    (t : String) (c : List String) (a : List (String × String)) (ch : List DomNode)
    (ps : List DomNode) (s0 : List DomRange)
    (hsel : st.winSel = some s0)
    (hps : childrenAt parent st.doc = some ps)
    (hi : ps[i]? = some (.element t c a ch)) :
    unwrap st (parent ++ [i]) =
      { st with
        doc := setChildrenAt parent (ps.take i ++ ch ++ ps.drop (i + 1)) st.doc,
        winSel := some [⟨parent, i, i + ch.length⟩] } := by
  have hil : i < ps.length := getLast?_lt_length ps i _ hi
  have hleni : (ps.take i).length = i := by rw [List.length_take]; omega
  have hnodeW : nodeAt (parent ++ [i]) st.doc = some (.element t c a ch) := by
    rw [nodeAt_append, hps, Option.some_bind, hi]
  have hchW : childrenAt (parent ++ [i]) st.doc = some ch := by
    rw [childrenAt_append, hps, Option.some_bind, hi]
    rfl
  have hst1 : expandToTag st (parent ++ [i]) =
      { st with winSel := some [⟨parent ++ [i], 0, ch.length⟩] } := by
    simp only [expandToTag, hsel, hnodeW]
  have hfrag : extractedFrag (parent ++ [i]) 0 ch.length st.doc = ch := by
    simp [extractedFrag, hchW]
  have hdoc1 : extractRemainder ⟨parent ++ [i], 0, ch.length⟩ st.doc =
      setChildrenAt parent
        (ps.take i ++ DomNode.element t c a [] :: ps.drop (i + 1)) st.doc := by
    rw [extractRemainder]
    have h1 : updateAt (parent ++ [i])
          (fun ns => ns.take (0 : Nat) ++ ns.drop ch.length) st.doc =
        setChildrenAt (parent ++ [i]) [] st.doc := by
      rw [updateAt_to_set _ _ _ hchW]
      simp [setChildrenAt]
    rw [h1, setChildrenAt, updateAt_append, updateAt_to_set _ _ _ hps]
    rw [setChildrenAt, setChildrenAt]
    rw [modifyIdx_eq _ i ps _ hi]
    simp [onChildren]
  have hps1 : childrenAt parent
      (setChildrenAt parent
        (ps.take i ++ DomNode.element t c a [] :: ps.drop (i + 1)) st.doc) =
      some (ps.take i ++ DomNode.element t c a [] :: ps.drop (i + 1)) :=
    childrenAt_setChildrenAt _ _ _ _ hps
  have hlen1 : (ps.take i ++ [DomNode.element t c a []]).length = i + 1 := by
    simp [hleni]
  have hdoc2 : removeChildAt parent i
      (setChildrenAt parent
        (ps.take i ++ DomNode.element t c a [] :: ps.drop (i + 1)) st.doc) =
      setChildrenAt parent (ps.take i ++ ps.drop (i + 1)) st.doc := by
    rw [removeChildAt, updateAt_to_set _ _ _ hps1, setChildrenAt, setChildrenAt,
      updateAt_comp]
    have htk : (ps.take i ++ DomNode.element t c a [] :: ps.drop (i + 1)).take i =
        ps.take i := List.take_left' hleni
    have hdp : (ps.take i ++ DomNode.element t c a [] :: ps.drop (i + 1)).drop (i + 1) =
        ps.drop (i + 1) := by
      have : ps.take i ++ DomNode.element t c a [] :: ps.drop (i + 1) =
          (ps.take i ++ [DomNode.element t c a []]) ++ ps.drop (i + 1) := by simp
      rw [this, List.drop_left' hlen1]
    rw [htk, hdp]
    rfl
  have hfix : rangeFixupRemove parent i ⟨parent ++ [i], 0, 0⟩ = ⟨parent, i, i⟩ := by
    simp [rangeFixupRemove, isPrefixOf_self]
  have hQtake : (ps.take i ++ ps.drop (i + 1)).take i = ps.take i :=
    List.take_left' hleni
  have hQdrop : (ps.take i ++ ps.drop (i + 1)).drop i = ps.drop (i + 1) :=
    List.drop_left' hleni
  have hchQ : childrenAt parent (setChildrenAt parent (ps.take i ++ ps.drop (i + 1)) st.doc) =
      some (ps.take i ++ ps.drop (i + 1)) := childrenAt_setChildrenAt _ _ _ _ hps
  have hins : (insertNodeR ⟨parent, i, i⟩ ch
        (setChildrenAt parent (ps.take i ++ ps.drop (i + 1)) st.doc)).fst =
      setChildrenAt parent (ps.take i ++ ch ++ ps.drop (i + 1)) st.doc := by
    show updateAt parent _ _ = _
    rw [updateAt_to_set _ _ _ hchQ, setChildrenAt, setChildrenAt, updateAt_comp]
    rw [hQtake, hQdrop]
    rfl
  have hins2 : (insertNodeR ⟨parent, i, i⟩ ch
        (setChildrenAt parent (ps.take i ++ ps.drop (i + 1)) st.doc)).snd =
      ⟨parent, i, i + ch.length⟩ := by
    simp [insertNodeR]
  rw [unwrap]
  rw [hst1]
  have hcr : currentRange { st with winSel := some [⟨parent ++ [i], 0, ch.length⟩] } =
      some ⟨parent ++ [i], 0, ch.length⟩ := rfl
  rw [hcr]
  simp only [unwrapCore, List.getLast?_concat, List.dropLast_concat]
  rw [hfrag, hdoc1, hdoc2, hfix, hins, hins2]

end Underline

namespace Underline

/-- The heart of the toggle: wrapping a selection and then unwrapping the
wrapper that wrap just inserted restores the exact original state —
document, selection and button. -/
theorem wrap_unwrap_restore (st : EditorState) (r : DomRange) (cs : List DomNode)
    (hsel : st.winSel = some [r])
    (hpath : childrenAt r.path st.doc = some cs)
    (hs : r.startOff ≤ r.endOff) (he : r.endOff ≤ cs.length) :
    unwrap (wrap st r) (r.path ++ [r.startOff]) = st := by
  have hsl : r.startOff ≤ cs.length := le_trans hs he
  have hlen : (cs.take r.startOff).length = r.startOff := by
    rw [List.length_take]; omega
  have hfraglen : ((cs.drop r.startOff).take (r.endOff - r.startOff)).length =
      r.endOff - r.startOff := by
    rw [List.length_take, List.length_drop]; omega
  rw [wrap_eq st r cs [r] hsel hpath hs he]
  have hps : childrenAt r.path
      (setChildrenAt r.path
        (cs.take r.startOff ++
          [DomNode.element tag [CSS] []
            ((cs.drop r.startOff).take (r.endOff - r.startOff))] ++
          cs.drop r.endOff) st.doc) =
      some (cs.take r.startOff ++
        [DomNode.element tag [CSS] []
          ((cs.drop r.startOff).take (r.endOff - r.startOff))] ++
        cs.drop r.endOff) :=
    childrenAt_setChildrenAt _ _ _ _ hpath
  have hi : (cs.take r.startOff ++
      [DomNode.element tag [CSS] []
        ((cs.drop r.startOff).take (r.endOff - r.startOff))] ++
      cs.drop r.endOff)[r.startOff]? =
      some (DomNode.element tag [CSS] []
        ((cs.drop r.startOff).take (r.endOff - r.startOff))) := by
    rw [List.append_assoc, List.getElem?_append_right (le_of_eq hlen), hlen]
    simp
  rw [unwrap_eq _ r.path r.startOff tag [CSS] []
    ((cs.drop r.startOff).take (r.endOff - r.startOff)) _ _ rfl hps hi]
  have htk : (cs.take r.startOff ++
      [DomNode.element tag [CSS] []
        ((cs.drop r.startOff).take (r.endOff - r.startOff))] ++
      cs.drop r.endOff).take r.startOff = cs.take r.startOff := by
    rw [List.append_assoc, List.take_left' hlen]
  have hdp : (cs.take r.startOff ++
      [DomNode.element tag [CSS] []
        ((cs.drop r.startOff).take (r.endOff - r.startOff))] ++
      cs.drop r.endOff).drop (r.startOff + 1) = cs.drop r.endOff := by
    have hlen2 : (cs.take r.startOff ++
        [DomNode.element tag [CSS] []
          ((cs.drop r.startOff).take (r.endOff - r.startOff))]).length =
        r.startOff + 1 := by simp [hlen]
    rw [List.drop_left' hlen2]
  have hcs : cs.take r.startOff ++
      (cs.drop r.startOff).take (r.endOff - r.startOff) ++ cs.drop r.endOff = cs := by
    rw [List.append_assoc]
    have h1 : cs.drop r.endOff = (cs.drop r.startOff).drop (r.endOff - r.startOff) := by
      rw [List.drop_drop]
      congr 1
      omega
    rw [h1, List.take_append_drop, List.take_append_drop]
  have hend : r.startOff + ((cs.drop r.startOff).take (r.endOff - r.startOff)).length =
      r.endOff := by rw [hfraglen]; omega
  show EditorState.mk _ _ _ = st
  rw [htk, hdp, setChildrenAt_setChildrenAt, hcs, setChildrenAt_self _ _ _ hpath, hend]
  rw [← hsel]

end Underline

namespace Underline

theorem mem_toggleClass_true (cls : String) (l : List String) :
    cls ∈ toggleClass cls true l := by
  simp only [toggleClass, if_true]
  by_cases h : l.contains cls = true
  · simp only [h, if_true]
    exact List.elem_iff.mp h
  · simp only [h, if_false]
    simp

theorem not_mem_toggleClass_false (cls : String) (l : List String) :
    cls ∉ toggleClass cls false l := by
  simp only [toggleClass]
  intro h
  simp only [Bool.false_eq_true, if_false] at h
  rw [List.mem_filter] at h
  simp at h

end Underline

namespace Underline

/-- C1: for every document state and valid non-empty selection that is not yet
underlined, calling `surround` and then `surround` again (on the selection the
first call left live) returns the document to a state equivalent to the
original: in fact the exact original state, hence the same text content and
the same absence of an underline wrapper around the selection. -/
theorem surround_surround_toggle (st : EditorState) (r : DomRange) (cs : List DomNode)
    (hsel : st.winSel = some [r])
    (hpath : childrenAt r.path st.doc = some cs)
    (hne : r.startOff < r.endOff) (he : r.endOff ≤ cs.length)
    (hnone : findParentTag st tag CSS = none) :
    surround (surround st (some r)) (currentRange (surround st (some r))) = st
    ∧ textContentList (surround (surround st (some r))
        (currentRange (surround st (some r)))).doc = textContentList st.doc
    ∧ findParentTag (surround (surround st (some r))
        (currentRange (surround st (some r)))) tag CSS = none := by
  have hs : r.startOff ≤ r.endOff := le_of_lt hne
  have h1 : surround st (some r) = wrap st r := by
    simp only [surround, hnone]
  have h2 : currentRange (wrap st r) =
      some ⟨r.path ++ [r.startOff], 0, r.endOff - r.startOff⟩ := by
    rw [wrap_eq st r cs [r] hsel hpath hs he]
    rfl
  have h3 : findParentTag (wrap st r) tag CSS = some (r.path ++ [r.startOff]) :=
    findParentTag_after_wrap st r cs [r] hsel hpath hs he
  have h4 : surround (wrap st r) (currentRange (wrap st r)) =
      unwrap (wrap st r) (r.path ++ [r.startOff]) := by
    rw [h2]
    simp only [surround, h3]
  have h5 := wrap_unwrap_restore st r cs hsel hpath hs he
  rw [h1, h4, h5]
  exact ⟨rfl, rfl, hnone⟩

/-- C1 witness: the spec scenario, the word `init` selected inside
`npm init command`. -/
theorem surround_surround_toggle_witness :
    surround
        (surround
          ⟨[.text "npm ", .text "init", .text " command"], some [⟨[], 1, 2⟩], none⟩
          (some ⟨[], 1, 2⟩))
        (currentRange (surround
          ⟨[.text "npm ", .text "init", .text " command"], some [⟨[], 1, 2⟩], none⟩
          (some ⟨[], 1, 2⟩))) =
      ⟨[.text "npm ", .text "init", .text " command"], some [⟨[], 1, 2⟩], none⟩
    ∧ textContentList (surround
        (surround
          ⟨[.text "npm ", .text "init", .text " command"], some [⟨[], 1, 2⟩], none⟩
          (some ⟨[], 1, 2⟩))
        (currentRange (surround
          ⟨[.text "npm ", .text "init", .text " command"], some [⟨[], 1, 2⟩], none⟩
          (some ⟨[], 1, 2⟩)))).doc =
      textContentList
        (⟨[.text "npm ", .text "init", .text " command"], some [⟨[], 1, 2⟩], none⟩ :
          EditorState).doc
    ∧ findParentTag (surround
        (surround
          ⟨[.text "npm ", .text "init", .text " command"], some [⟨[], 1, 2⟩], none⟩
          (some ⟨[], 1, 2⟩))
        (currentRange (surround
          ⟨[.text "npm ", .text "init", .text " command"], some [⟨[], 1, 2⟩], none⟩
          (some ⟨[], 1, 2⟩)))) tag CSS = none :=
  surround_surround_toggle
    ⟨[.text "npm ", .text "init", .text " command"], some [⟨[], 1, 2⟩], none⟩
    ⟨[], 1, 2⟩ [.text "npm ", .text "init", .text " command"]
    rfl rfl (by decide) (by decide) rfl

/-- C2: wrapping a selection and then unwrapping the wrapper element that the
wrap produced (the one `findParentTag` reports afterwards) preserves the
document's text content exactly; indeed the whole document is restored. -/
theorem wrap_unwrap_roundtrip (st : EditorState) (r : DomRange) (cs : List DomNode)
    (w : List Nat)
    (hsel : st.winSel = some [r])
    (hpath : childrenAt r.path st.doc = some cs)
    (hs : r.startOff ≤ r.endOff) (he : r.endOff ≤ cs.length)
    (hw : findParentTag (wrap st r) tag CSS = some w) :
    textContentList ((unwrap (wrap st r) w).doc) = textContentList st.doc
    ∧ (unwrap (wrap st r) w).doc = st.doc := by
  have h3 := findParentTag_after_wrap st r cs [r] hsel hpath hs he
  have hww : w = r.path ++ [r.startOff] := Option.some.inj (hw.symm.trans h3)
  subst hww
  rw [wrap_unwrap_restore st r cs hsel hpath hs he]
  exact ⟨rfl, rfl⟩

/-- C2 witness: wrap then unwrap of `init` inside `npm init command`. -/
theorem wrap_unwrap_roundtrip_witness :
    textContentList ((unwrap
        (wrap ⟨[.text "npm ", .text "init", .text " command"], some [⟨[], 1, 2⟩], none⟩
          ⟨[], 1, 2⟩) [1]).doc) =
      textContentList
        (⟨[.text "npm ", .text "init", .text " command"], some [⟨[], 1, 2⟩], none⟩ :
          EditorState).doc
    ∧ (unwrap
        (wrap ⟨[.text "npm ", .text "init", .text " command"], some [⟨[], 1, 2⟩], none⟩
          ⟨[], 1, 2⟩) [1]).doc =
      (⟨[.text "npm ", .text "init", .text " command"], some [⟨[], 1, 2⟩], none⟩ :
        EditorState).doc :=
  wrap_unwrap_roundtrip
    ⟨[.text "npm ", .text "init", .text " command"], some [⟨[], 1, 2⟩], none⟩
    ⟨[], 1, 2⟩ [.text "npm ", .text "init", .text " command"] [1]
    rfl rfl (by decide) (by decide) rfl

/-- C3: for every non-null range, `surround` asks `findParentTag` for an
ancestor wrapper with the fixed tag and class and performs exactly one of the
two actions: with a wrapper present it delegates to `unwrap` on that wrapper,
otherwise it delegates to `wrap` on the range; the two cases are mutually
exclusive, so it never performs both. -/
theorem surround_delegates (st : EditorState) (r : DomRange) :
    (findParentTag st tag CSS = none ∧ surround st (some r) = wrap st r)
    ∨ (∃ w, findParentTag st tag CSS = some w ∧ surround st (some r) = unwrap st w) := by
  cases h : findParentTag st tag CSS with
  | none =>
    left
    exact ⟨rfl, by simp only [surround, h]⟩
  | some w =>
    right
    exact ⟨w, rfl, by simp only [surround, h]⟩

end Underline

namespace Underline

/-- C4 counterexample: a state where, at call time, the live selection exists
but "has no range available" (`window.getSelection()` is non-null with an
empty range list) and the document is a lone wrapper around `hi`.  The claim
says `unwrap` must then be a no-op, but `expandToTag` runs before the guards
and establishes a range over the wrapper, so `unwrap` proceeds and mutates
the document. -/
theorem unwrap_rangeless_selection_mutates :
    (unwrap ⟨[.element "U" ["cdx-underline"] [] [.text "hi"]], some [], none⟩ [0]).doc ≠
      (⟨[.element "U" ["cdx-underline"] [] [.text "hi"]], some [], none⟩ :
        EditorState).doc := by
  intro h
  have h2 : some (DomNode.text "hi") =
      some (DomNode.element "U" ["cdx-underline"] [] [DomNode.text "hi"]) :=
    congrArg List.head? h
  exact Option.noConfusion h2 (fun h3 => DomNode.noConfusion h3)

/-- C4 amended: `unwrap` is a no-op when the host's live selection is absent
(`window.getSelection()` null); and when a selection object exists but, after
the expand step, no range is available (the wrapper handle does not resolve to
an element), `unwrap` leaves the document unchanged.  A merely rangeless
selection at call time does not force a no-op, since `expandToTag` establishes
a range before the guards run. -/
theorem unwrap_guards (st : EditorState) (w : List Nat) :
    (st.winSel = none → unwrap st w = st)
    ∧ (∀ rs, st.winSel = some rs → nodeAt w st.doc = none →
        (unwrap st w).doc = st.doc) := by
  constructor
  · intro h
    have h1 : expandToTag st w = st := by
      simp only [expandToTag, h]
    have h2 : currentRange st = none := by
      simp only [currentRange, h, Option.none_bind]
    simp only [unwrap, h1, h2]
  · intro rs h hn
    have h1 : expandToTag st w = { st with winSel := some [] } := by
      simp only [expandToTag, h, hn]
    have h2 : currentRange { st with winSel := (some [] : Option (List DomRange)) } =
        none := rfl
    simp only [unwrap, h1, h2]

/-- C4 amended witness: with a null selection, `unwrap` returns the state
untouched. -/
theorem unwrap_guards_witness :
    unwrap ⟨[.text "x"], none, none⟩ [0] = ⟨[.text "x"], none, none⟩ :=
  (unwrap_guards ⟨[.text "x"], none, none⟩ [0]).1 rfl

/-- C5 counterexample: an empty (collapsed) but non-null range is not caught
by the `if (!range) return` guard — a JavaScript `Range` object is truthy even
when collapsed — so `surround` proceeds, calls `wrap`, and mutates the
document by inserting an empty wrapper element. -/
theorem surround_collapsed_range_mutates :
    (surround ⟨[.text "ab"], some [⟨[], 0, 0⟩], none⟩ (some ⟨[], 0, 0⟩)).doc ≠
      (⟨[.text "ab"], some [⟨[], 0, 0⟩], none⟩ : EditorState).doc := by
  intro h
  have h2 : some (DomNode.element tag [CSS] [] []) = some (DomNode.text "ab") :=
    congrArg List.head? h
  exact Option.noConfusion h2 (fun h3 => DomNode.noConfusion h3)

/-- C5 amended: `surround` with a null range is a no-op — it does not mutate
the state and calls neither `wrap` nor `unwrap`; only nullness is guarded, an
empty non-null range proceeds to `wrap`/`unwrap` as usual. -/
theorem surround_null_noop (st : EditorState) : surround st none = st := rfl

end Underline

namespace Underline

/-- C6: `checkState` returns true exactly when `findParentTag` reports an
underline wrapper among the current selection's ancestors; it sets the toolbar
button's active class to match that boolean (present in the class list iff the
wrapper was found); it does not mutate the document; and in the toggle
scenario it returns true for the selection `wrap` leaves inside the wrapped
span and false again after the matching `unwrap`. -/
theorem checkState_spec (st : EditorState) (activeCls : String) (b : Button)
    (r : DomRange) (cs : List DomNode)
    (hb : st.button = some b)
    (hsel : st.winSel = some [r])
    (hpath : childrenAt r.path st.doc = some cs)
    (hs : r.startOff ≤ r.endOff) (he : r.endOff ≤ cs.length)
    (hnone : findParentTag st tag CSS = none) :
    ((checkState st activeCls).fst = (findParentTag st tag CSS).isSome)
    ∧ ((checkState st activeCls).snd.doc = st.doc)
    ∧ (∃ b1, (checkState st activeCls).snd.button = some b1 ∧
        (activeCls ∈ b1.classes ↔ (findParentTag st tag CSS).isSome = true))
    ∧ ((checkState (wrap st r) activeCls).fst = true)
    ∧ ((checkState (unwrap (wrap st r) (r.path ++ [r.startOff])) activeCls).fst = false) := by
  refine ⟨rfl, rfl, ?_, ?_, ?_⟩
  · refine ⟨⟨toggleClass activeCls (findParentTag st tag CSS).isSome b.classes⟩, ?_, ?_⟩
    · show st.button.map _ = _
      rw [hb]
      rfl
    · cases hfp : (findParentTag st tag CSS).isSome with
      | true =>
        simp only [hfp]
        exact ⟨fun _ => trivial, fun _ => mem_toggleClass_true activeCls b.classes⟩
      | false =>
        simp only [hfp]
        constructor
        · intro hmem
          exact absurd hmem (not_mem_toggleClass_false activeCls b.classes)
        · intro hcontra
          exact Bool.noConfusion hcontra
  · show (findParentTag (wrap st r) tag CSS).isSome = true
    rw [findParentTag_after_wrap st r cs [r] hsel hpath hs he]
    rfl
  · show (findParentTag (unwrap (wrap st r) (r.path ++ [r.startOff])) tag CSS).isSome = false
    rw [wrap_unwrap_restore st r cs hsel hpath hs he, hnone]
    rfl

/-- C6 witness: the spec scenario with a rendered button. -/
theorem checkState_spec_witness :
    ((checkState
        ⟨[.text "npm ", .text "init", .text " command"], some [⟨[], 1, 2⟩],
          some ⟨["ce-inline-tool"]⟩⟩ "ce-inline-tool--active").fst =
      (findParentTag
        ⟨[.text "npm ", .text "init", .text " command"], some [⟨[], 1, 2⟩],
          some ⟨["ce-inline-tool"]⟩⟩ tag CSS).isSome)
    ∧ ((checkState
        ⟨[.text "npm ", .text "init", .text " command"], some [⟨[], 1, 2⟩],
          some ⟨["ce-inline-tool"]⟩⟩ "ce-inline-tool--active").snd.doc =
      (⟨[.text "npm ", .text "init", .text " command"], some [⟨[], 1, 2⟩],
          some ⟨["ce-inline-tool"]⟩⟩ : EditorState).doc)
    ∧ (∃ b1, (checkState
        ⟨[.text "npm ", .text "init", .text " command"], some [⟨[], 1, 2⟩],
          some ⟨["ce-inline-tool"]⟩⟩ "ce-inline-tool--active").snd.button = some b1 ∧
        ("ce-inline-tool--active" ∈ b1.classes ↔
          (findParentTag
            ⟨[.text "npm ", .text "init", .text " command"], some [⟨[], 1, 2⟩],
              some ⟨["ce-inline-tool"]⟩⟩ tag CSS).isSome = true))
    ∧ ((checkState (wrap
        ⟨[.text "npm ", .text "init", .text " command"], some [⟨[], 1, 2⟩],
          some ⟨["ce-inline-tool"]⟩⟩ ⟨[], 1, 2⟩) "ce-inline-tool--active").fst = true)
    ∧ ((checkState (unwrap (wrap
        ⟨[.text "npm ", .text "init", .text " command"], some [⟨[], 1, 2⟩],
          some ⟨["ce-inline-tool"]⟩⟩ ⟨[], 1, 2⟩) ([] ++ [1]))
        "ce-inline-tool--active").fst = false) :=
  checkState_spec
    ⟨[.text "npm ", .text "init", .text " command"], some [⟨[], 1, 2⟩],
      some ⟨["ce-inline-tool"]⟩⟩
    "ce-inline-tool--active" ⟨["ce-inline-tool"]⟩ ⟨[], 1, 2⟩
    [.text "npm ", .text "init", .text " command"]
    rfl rfl rfl (by decide) (by decide) rfl

/-- C7: the static sanitize rule is exactly the declarative object
`{ u: { class: 'cdx-underline' } }`, and under the host's sanitization pass a
`u` element keeps only the whitelisted class attribute: the spec's example
`<u class="cdx-underline" onclick="x">text</u>` sanitizes to
`<u class="cdx-underline">text</u>`. -/
theorem sanitize_rule :
    sanitize = [("u", [("class", "cdx-underline")])]
    ∧ sanitizeNode sanitize
        (.element "u" ["cdx-underline"] [("onclick", "x")] [.text "text"]) =
      .element "u" ["cdx-underline"] [] [.text "text"] := by
  constructor
  · rfl
  · simp [sanitizeNode, sanitizeList, sanitize, CSS]

end Underline

namespace Underline

/-- C8: `wrap` creates a new element with the fixed tag `U` and class
`cdx-underline`, moves (not copies) the range's extracted children into it —
the container afterwards holds the untouched prefix, the wrapper with exactly
the extracted slice as children, and the untouched suffix — and the host
selection is expanded to span the inserted wrapper's contents. -/
theorem wrap_spec (st : EditorState) (r : DomRange) (cs : List DomNode)
    (s0 : List DomRange)
    (hsel : st.winSel = some s0)
    (hpath : childrenAt r.path st.doc = some cs)
    (hs : r.startOff ≤ r.endOff) (he : r.endOff ≤ cs.length) :
    (wrap st r).doc =
      setChildrenAt r.path
        (cs.take r.startOff ++
          [DomNode.element tag [CSS] []
            ((cs.drop r.startOff).take (r.endOff - r.startOff))] ++
          cs.drop r.endOff) st.doc
    ∧ (wrap st r).winSel =
        some [⟨r.path ++ [r.startOff], 0, r.endOff - r.startOff⟩]
    ∧ (wrap st r).button = st.button := by
  rw [wrap_eq st r cs s0 hsel hpath hs he]
  exact ⟨rfl, rfl, rfl⟩

/-- C8 witness: wrapping `init` inside `npm init command`. -/
theorem wrap_spec_witness :
    (wrap ⟨[.text "npm ", .text "init", .text " command"], some [⟨[], 1, 2⟩], none⟩
        ⟨[], 1, 2⟩).doc =
      setChildrenAt []
        (([.text "npm ", .text "init", .text " command"] : List DomNode).take 1 ++
          [DomNode.element tag [CSS] []
            ((([.text "npm ", .text "init", .text " command"] : List DomNode).drop 1).take (2 - 1))] ++
          ([.text "npm ", .text "init", .text " command"] : List DomNode).drop 2)
        (⟨[.text "npm ", .text "init", .text " command"], some [⟨[], 1, 2⟩], none⟩ :
          EditorState).doc
    ∧ (wrap ⟨[.text "npm ", .text "init", .text " command"], some [⟨[], 1, 2⟩], none⟩
        ⟨[], 1, 2⟩).winSel = some [⟨[] ++ [1], 0, 2 - 1⟩]
    ∧ (wrap ⟨[.text "npm ", .text "init", .text " command"], some [⟨[], 1, 2⟩], none⟩
        ⟨[], 1, 2⟩).button =
      (⟨[.text "npm ", .text "init", .text " command"], some [⟨[], 1, 2⟩], none⟩ :
        EditorState).button :=
  wrap_spec ⟨[.text "npm ", .text "init", .text " command"], some [⟨[], 1, 2⟩], none⟩
    ⟨[], 1, 2⟩ [.text "npm ", .text "init", .text " command"] [⟨[], 1, 2⟩]
    rfl rfl (by decide) (by decide)

/-- C9: `unwrap` on a wrapper sitting at child `i` of its parent extracts the
wrapper's children, removes the empty wrapper, re-inserts the extracted
content at the wrapper's old position, and resets the host's live selection to
a range spanning exactly the re-inserted content, so the selection stays
anchored to the same text. -/
theorem unwrap_spec (st : EditorState) (parent : List Nat) (i : Nat)
    (t : String) (c : List String) (a : List (String × String)) (ch : List DomNode)
    (ps : List DomNode) (s0 : List DomRange)
    (hsel : st.winSel = some s0)
    (hps : childrenAt parent st.doc = some ps)
    (hi : ps[i]? = some (.element t c a ch)) :
    (unwrap st (parent ++ [i])).doc =
      setChildrenAt parent (ps.take i ++ ch ++ ps.drop (i + 1)) st.doc
    ∧ (unwrap st (parent ++ [i])).winSel = some [⟨parent, i, i + ch.length⟩] := by
  rw [unwrap_eq st parent i t c a ch ps s0 hsel hps hi]
  exact ⟨rfl, rfl⟩

/-- C9 witness: unwrapping the wrapper of `init` inside
`npm <u class="cdx-underline">init</u> command`. -/
theorem unwrap_spec_witness :
    (unwrap
        ⟨[.text "npm ", .element "U" ["cdx-underline"] [] [.text "init"],
          .text " command"], some [⟨[], 1, 2⟩], none⟩ ([] ++ [1])).doc =
      setChildrenAt []
        (([.text "npm ", .element "U" ["cdx-underline"] [] [.text "init"],
            .text " command"] : List DomNode).take 1 ++
          [DomNode.text "init"] ++
          ([.text "npm ", .element "U" ["cdx-underline"] [] [.text "init"],
            .text " command"] : List DomNode).drop (1 + 1))
        (⟨[.text "npm ", .element "U" ["cdx-underline"] [] [.text "init"],
            .text " command"], some [⟨[], 1, 2⟩], none⟩ : EditorState).doc
    ∧ (unwrap
        ⟨[.text "npm ", .element "U" ["cdx-underline"] [] [.text "init"],
          .text " command"], some [⟨[], 1, 2⟩], none⟩ ([] ++ [1])).winSel =
      some [⟨[], 1, 1 + ([DomNode.text "init"] : List DomNode).length⟩] :=
  unwrap_spec
    ⟨[.text "npm ", .element "U" ["cdx-underline"] [] [.text "init"],
      .text " command"], some [⟨[], 1, 2⟩], none⟩
    [] 1 "U" ["cdx-underline"] [] [.text "init"]
    [.text "npm ", .element "U" ["cdx-underline"] [] [.text "init"],
      .text " command"] [⟨[], 1, 2⟩]
    rfl rfl rfl

/-- C10: when `checkState` runs before `render` ever created a button, the
optional-chained class toggle is skipped entirely: the call still returns the
boolean result of the ancestor-wrapper query and leaves the whole state —
button included — unchanged, without failing. -/
theorem checkState_no_button (st : EditorState) (activeCls : String)
    (h : st.button = none) :
    (checkState st activeCls).fst = (findParentTag st tag CSS).isSome
    ∧ (checkState st activeCls).snd = st := by
  refine ⟨rfl, ?_⟩
  cases st with
  | mk d w b =>
    simp only at h
    subst h
    rfl

/-- C10 witness: `checkState` on a state that never saw `render`. -/
theorem checkState_no_button_witness :
    (checkState ⟨[.text "hi"], some [⟨[], 0, 1⟩], none⟩ "act").fst =
      (findParentTag ⟨[.text "hi"], some [⟨[], 0, 1⟩], none⟩ tag CSS).isSome
    ∧ (checkState ⟨[.text "hi"], some [⟨[], 0, 1⟩], none⟩ "act").snd =
      ⟨[.text "hi"], some [⟨[], 0, 1⟩], none⟩ :=
  checkState_no_button ⟨[.text "hi"], some [⟨[], 0, 1⟩], none⟩ "act" rfl

end Underline
